import Mathlib

/-!
Verification development for the smart-web-crawler-mcp repository.

The repository's core pipeline (content extraction and AI link analysis,
in `src/content-extractor.ts`, `src/browser-utils.ts` and
`src/ai-link-analyzer.ts`) is embedded shallowly below:

* JavaScript strings are Lean `String`s (operated on via their `List Char`
  data); JavaScript numbers are embedded as `ℚ` (all score arithmetic in
  the source uses small decimal constants and clamping, none of whose
  comparisons is sensitive to binary floating-point rounding, and
  `JSON.parse` never produces `NaN`/`Infinity`).
* The WHATWG `URL` constructor used by the source is modelled by
  `parseURL`, restricted to the `scheme://host/path` shapes the crawler
  manipulates (no dot-segment normalization, which the source never
  relies on: it stores the unnormalized resolved string).
* JavaScript regular-expression operations are embedded as explicit
  character-list scanners with the same match/replace semantics
  (left-to-right, non-overlapping, continuing after each replacement).
  Scanners use fuel-based structural recursion (fuel bounded by the
  input length) so that every definition computes by `decide`.
* The nondeterministic model call of `analyzeLinksWithAI` is an explicit
  parameter: either a thrown error or the raw response text.
  `try`/`catch` is embedded as `Except`.
-/

set_option maxRecDepth 40000

namespace Crawler

/-! ## Basic character/string utilities -/

/-- JavaScript whitespace (the `\s` class and `String.prototype.trim`),
restricted to the ASCII whitespace characters plus NBSP. -/
def isWsJS (c : Char) : Bool :=
  c = ' ' || c = '\t' || c = '\n' || c = '\r' ||
  c = (Char.ofNat 11) || c = (Char.ofNat 12) || c = (Char.ofNat 160)

/-- `String.prototype.trim` on character lists. -/
def trimL (l : List Char) : List Char :=
  ((l.dropWhile isWsJS).reverse.dropWhile isWsJS).reverse

/-- `String.prototype.trim`. -/
def trimS (s : String) : String := ⟨trimL s.data⟩

/-- JavaScript `String.prototype.toLowerCase` (ASCII range, which is all
the source's comparisons need). -/
def lowerL (l : List Char) : List Char := l.map Char.toLower

def lowerS (s : String) : String := ⟨lowerL s.data⟩

/-- JavaScript `String.prototype.includes`: substring containment. -/
def containsSubL (hay needle : List Char) : Bool :=
  hay.tails.any (fun t => needle.isPrefixOf t)

def containsSubS (hay needle : String) : Bool := containsSubL hay.data needle.data

/-- JavaScript `String.prototype.startsWith`. -/
def startsWithL (hay pre : List Char) : Bool := pre.isPrefixOf hay

def startsWithS (hay pre : String) : Bool := startsWithL hay.data pre.data

/-- JavaScript `String.prototype.endsWith`. -/
def endsWithL (hay suf : List Char) : Bool := suf.isSuffixOf hay

def endsWithS (hay suf : String) : Bool := endsWithL hay.data suf.data

/-! ## The stable descending sort used by `.sort((a, b) => b.score - a.score)`

JavaScript's `Array.prototype.sort` is stable (ES2019); a stable sort by a
numeric key in descending order is computed by insertion that places each
later element after all earlier elements with a greater-or-equal key. -/

def insertDesc (key : α → ℚ) (a : α) : List α → List α
  | [] => [a]
  | b :: bs => if key a ≤ key b then b :: insertDesc key a bs else a :: b :: bs

def sortDesc (key : α → ℚ) (l : List α) : List α :=
  l.foldl (fun acc x => insertDesc key x acc) []

theorem mem_insertDesc (key : α → ℚ) (a x : α) (l : List α) :
    x ∈ insertDesc key a l ↔ x = a ∨ x ∈ l := by
  induction l with
  | nil => simp [insertDesc]
  | cons b bs ih =>
      by_cases h : key a ≤ key b
      · simp only [insertDesc, if_pos h, List.mem_cons, ih]
        tauto
      · simp only [insertDesc, if_neg h, List.mem_cons]

theorem mem_sortDesc (key : α → ℚ) (x : α) (l : List α) :
    x ∈ sortDesc key l ↔ x ∈ l := by
  suffices h : ∀ acc, x ∈ l.foldl (fun acc y => insertDesc key y acc) acc ↔ x ∈ acc ∨ x ∈ l by
    have := h []
    simpa [sortDesc] using this
  induction l with
  | nil => intro acc; simp
  | cons b bs ih =>
      intro acc
      simp only [List.foldl_cons, ih, mem_insertDesc, List.mem_cons]
      tauto

theorem pairwise_insertDesc (key : α → ℚ) (a : α) (l : List α)
    (hl : l.Pairwise (fun x y => key y ≤ key x)) :
    (insertDesc key a l).Pairwise (fun x y => key y ≤ key x) := by
  induction l with
  | nil => simp [insertDesc]
  | cons b bs ih =>
      rcases List.pairwise_cons.mp hl with ⟨hb, hbs⟩
      by_cases h : key a ≤ key b
      · simp only [insertDesc, if_pos h]
        refine List.pairwise_cons.mpr ⟨?_, ih hbs⟩
        intro y hy
        rcases (mem_insertDesc key a y bs).mp hy with rfl | hy'
        · exact h
        · exact hb y hy'
      · simp only [insertDesc, if_neg h]
        refine List.pairwise_cons.mpr ⟨?_, hl⟩
        intro y hy
        rcases List.mem_cons.mp hy with rfl | hy'
        · exact le_of_not_le h
        · exact le_trans (hb y hy') (le_of_not_le h)

theorem pairwise_sortDesc (key : α → ℚ) (l : List α) :
    (sortDesc key l).Pairwise (fun x y => key y ≤ key x) := by
  suffices h : ∀ acc, acc.Pairwise (fun x y => key y ≤ key x) →
      (l.foldl (fun acc y => insertDesc key y acc) acc).Pairwise (fun x y => key y ≤ key x) by
    exact h [] (by simp)
  induction l with
  | nil => intro acc hacc; simpa using hacc
  | cons b bs ih =>
      intro acc hacc
      exact ih _ (pairwise_insertDesc key b acc hacc)

end Crawler

namespace Crawler

/-! ## Data model (`src/content-extractor.ts`) -/

inductive LinkType where
  | internal
  | external
deriving DecidableEq

/-- `ExtractedLink` of `content-extractor.ts`. -/
structure ExtractedLink where
  url : String
  text : String
  type : LinkType
deriving DecidableEq

/-- `ExtractedContent` of `content-extractor.ts` (the `title` field is
irrelevant to every claim and is omitted from the record the analyzer
consumes; `analyzeLinksWithAI` reads only `links`). -/
structure ExtractedContent where
  links : List ExtractedLink
  pageText : String
deriving DecidableEq

/-- `AnalyzedLink` of `ai-link-analyzer.ts`.  The link fields are
`Option`s: the source spreads `{...originalLink}` where `originalLink`
is `originalLinks[linkIndex]`, and a fractional in-range `linkIndex`
makes that lookup `undefined`, producing an object with absent
`url`/`text`/`type` fields. -/
structure AnalyzedLink where
  url : Option String
  text : Option String
  type : Option LinkType
  relevanceScore : ℚ
  reasoning : String
deriving DecidableEq

/-- `LinkAnalysisResult` of `ai-link-analyzer.ts`. -/
structure LinkAnalysisResult where
  relevantLinks : List AnalyzedLink
  totalAnalyzed : Nat
  queryInterpretation : String
deriving DecidableEq

/-! ## A model of the WHATWG `URL` constructor

`new URL(s)` as used by the source: absolute `scheme://[user@]host[:port]/path[?query][#fragment]`
URLs.  Restrictions (documented, none observable through the claims):
hostnames are ASCII `[a-z0-9._-]`, IPv6 literals and lone-colon schemes
(`mailto:`) are not modelled, and the `pathname` is not dot-segment
normalized (the source only reads `protocol`, `host`, `hostname` and
`pathname` of URLs it has built itself, and stores raw resolved strings). -/

structure URLRec where
  protocol : String
  hostname : String
  port : String
  pathname : String
deriving DecidableEq

/-- The `host` property: hostname plus non-empty port. -/
def URLRec.host (u : URLRec) : String :=
  if u.port = "" then u.hostname else u.hostname ++ ":" ++ u.port

def isSchemeChar (c : Char) : Bool :=
  c.isAlphanum || c = '+' || c = '-' || c = '.'

def isHostChar (c : Char) : Bool :=
  (c.isAlpha && c.isLower) || c.isDigit || c = '.' || c = '-' || c = '_'

/-- Split off a leading `scheme://`; returns the lowered scheme and rest. -/
def splitScheme (l : List Char) : Option (List Char × List Char) :=
  let scheme := l.takeWhile isSchemeChar
  match scheme with
  | [] => none
  | c :: _ =>
      if c.isAlpha then
        let rest := l.drop scheme.length
        if startsWithL rest [':', '/', '/'] then some (lowerL scheme, rest.drop 3)
        else none
      else none

def isAuthorityEnd (c : Char) : Bool := c = '/' || c = '?' || c = '#'

/-- Strip `userinfo@` (everything up to the last `@`). -/
def afterLastAt (l : List Char) : List Char :=
  ((l.reverse.takeWhile (fun c => c ≠ '@'))).reverse

/-- Split a trailing `:digits` port off the host-port component. -/
def splitPort (l : List Char) : Option (List Char × List Char) :=
  if l.contains ':' then
    let revPort := l.reverse.takeWhile (fun c => c ≠ ':')
    if revPort.all Char.isDigit then
      some (l.take (l.length - revPort.length - 1), revPort.reverse)
    else none
  else some (l, [])

def parseURL (s : String) : Option URLRec :=
  match splitScheme s.data with
  | none => none
  | some (scheme, rest) =>
      let authority := rest.takeWhile (fun c => !isAuthorityEnd c)
      let tail := rest.drop authority.length
      let hostport := afterLastAt authority
      match splitPort hostport with
      | none => none
      | some (hostRaw, port) =>
          let hostname := lowerL hostRaw
          if hostname ≠ [] ∧ hostname.all isHostChar then
            let path := tail.takeWhile (fun c => c ≠ '?' ∧ c ≠ '#')
            let pathname := if path = [] then ['/'] else path
            some { protocol := ⟨scheme ++ [':']⟩
                 , hostname := ⟨hostname⟩
                 , port := ⟨port⟩
                 , pathname := ⟨pathname⟩ }
          else none

/-! ## `resolveUrl` (`content-extractor.ts` lines 117-142; an identical
copy exists in the second `content-extractor` variant in
`browser-utils.ts`).  `new URL(baseUrl)` throwing is `none`. -/

def httpPrefix : String := "http://"
def httpsPrefix : String := "https://"
def slashSlash : String := "//"
def slashStr : String := "/"

/-- The `.replace(/\/[^\/]*$/, '/')` of `resolveUrl`: strip the trailing
segment after the last `/` (the pathname always contains a `/`). -/
def stripLastSeg (p : String) : String :=
  ⟨(p.data.reverse.dropWhile (fun c => c ≠ '/')).reverse⟩

def resolveUrl (href baseUrl : String) : Option String :=
  if startsWithS href httpPrefix || startsWithS href httpsPrefix then
    some href
  else if startsWithS href slashSlash then
    (parseURL baseUrl).map (fun b => b.protocol ++ href)
  else if startsWithS href slashStr then
    (parseURL baseUrl).map (fun b => b.protocol ++ slashSlash ++ b.host ++ href)
  else
    (parseURL baseUrl).map (fun b =>
      let basePath := if endsWithS b.pathname slashStr then b.pathname else stripLastSeg b.pathname
      b.protocol ++ slashSlash ++ b.host ++ basePath ++ href)

/-! ## `isNonContentLink` (`content-extractor.ts` lines 147-185; an
identical copy exists in `browser-utils.ts`). -/

def nonContentExtensions : List String :=
  [r".css", r".js", r".json", r".xml", r".rss", r".atom",
   r".jpg", r".jpeg", r".png", r".gif", r".webp", r".svg", r".ico",
   r".pdf", r".zip", r".tar", r".gz", r".rar", r".7z",
   r".mp3", r".mp4", r".avi", r".mov", r".wmv", r".flv",
   r".doc", r".docx", r".xls", r".xlsx", r".ppt", r".pptx"]

def nonContentPatterns : List String :=
  [r"mailto:", r"tel:", r"ftp:", r"file:",
   r"javascript:", r"data:",
   r"#",
   r"/feed", r"/rss", r"/sitemap",
   r"/wp-content/", r"/wp-includes/",
   r"/assets/", r"/static/", r"/media/",
   r"?format=", r"&format=",
   r"/print/", r"/download/"]

def isNonContentLink (href : String) : Bool :=
  let url := lowerS href
  nonContentExtensions.any (fun ext => endsWithS url ext) ||
  nonContentPatterns.any (fun pat => containsSubS url pat)

end Crawler

namespace Crawler

/-! ## HTML text extraction (`content-extractor.ts` lines 83-104)

Each JavaScript regex replace is an explicit scanner.  Scanners take a
fuel argument (any fuel ≥ the input length computes the total function;
wrappers pass `length + 1`) so they reduce structurally. -/

/-- Case-insensitive: does `l` start with `pat` (pat is lowercase)? -/
def startsWithCI (l pat : List Char) : Bool :=
  lowerL (l.take pat.length) = pat

def scriptTags : List (List Char) :=
  [(r"script" : String).data, (r"style" : String).data, (r"noscript" : String).data]

/-- Try to match `<tag[^>]*>` at the head of `l` for one of the three tag
names; returns the tag and the remainder after the `>`. -/
def tryScriptOpen (l : List Char) : Option (List Char × List Char) :=
  scriptTags.firstM (fun tag =>
    if startsWithCI l ('<' :: tag) then
      let rest := (l.drop (tag.length + 1)).dropWhile (fun c => c ≠ '>')
      match rest with
      | '>' :: r => some (tag, r)
      | _ => none
    else none)

/-- Lazy search for the matching `</tag>`; returns the remainder after it. -/
def findCloseTag (tag : List Char) : Nat → List Char → Option (List Char)
  | 0, _ => none
  | _, [] => none
  | fuel + 1, c :: cs =>
      if startsWithCI (c :: cs) ('<' :: '/' :: tag ++ ['>']) then
        some ((c :: cs).drop (tag.length + 3))
      else findCloseTag tag fuel cs

/-- `.replace(/<(script|style|noscript)[^>]*>[\s\S]*?<\/\1>/gi, '')`. -/
def removeScriptsF : Nat → List Char → List Char
  | 0, l => l
  | _, [] => []
  | fuel + 1, c :: cs =>
      if c = '<' then
        match tryScriptOpen (c :: cs) with
        | some (tag, rest) =>
            match findCloseTag tag (rest.length + 1) rest with
            | some rest2 => removeScriptsF fuel rest2
            | none => c :: removeScriptsF fuel cs
        | none => c :: removeScriptsF fuel cs
      else c :: removeScriptsF fuel cs

def removeScripts (l : List Char) : List Char := removeScriptsF (l.length + 1) l

/-- `.replace(/<[^>]*>/g, repl)` — `repl` is `' '` in `extractText` and
empty in the anchor-text cleanup of `extractLinks`. -/
def stripTagsF (repl : List Char) : Nat → List Char → List Char
  | 0, l => l
  | _, [] => []
  | fuel + 1, c :: cs =>
      if c = '<' then
        match cs.dropWhile (fun x => x ≠ '>') with
        | '>' :: r => repl ++ stripTagsF repl fuel r
        | _ => c :: stripTagsF repl fuel cs
      else c :: stripTagsF repl fuel cs

def stripTags (repl : List Char) (l : List Char) : List Char :=
  stripTagsF repl (l.length + 1) l

/-- `.replace(/pat/g, repl)` for a fixed non-empty literal `pat`. -/
def replaceAllF (pat repl : List Char) : Nat → List Char → List Char
  | 0, l => l
  | _, [] => []
  | fuel + 1, c :: cs =>
      if pat.isPrefixOf (c :: cs) then repl ++ replaceAllF pat repl fuel ((c :: cs).drop pat.length)
      else c :: replaceAllF pat repl fuel cs

def replaceAll (pat repl : List Char) (l : List Char) : List Char :=
  replaceAllF pat repl (l.length + 1) l

def entAmp : List Char := ('&' :: (r"amp;" : String).data)
def entLt : List Char := ('&' :: (r"lt;" : String).data)
def entGt : List Char := ('&' :: (r"gt;" : String).data)
def entQuot : List Char := ('&' :: (r"quot;" : String).data)
def entApos : List Char := ['&', '#', '3', '9', ';']
def entNbsp : List Char := ('&' :: (r"nbsp;" : String).data)

/-- The six sequential entity replaces of `extractText`. -/
def decodeEntities (l : List Char) : List Char :=
  replaceAll entNbsp [' ']
    (replaceAll entApos [Char.ofNat 39]
      (replaceAll entQuot ['"']
        (replaceAll entGt ['>']
          (replaceAll entLt ['<']
            (replaceAll entAmp ['&'] l)))))

/-- `.replace(/\s+/g, ' ')`: collapse whitespace runs to single spaces. -/
def collapseGo : Bool → List Char → List Char
  | _, [] => []
  | afterWs, c :: cs =>
      if isWsJS c then
        if afterWs then collapseGo true cs else ' ' :: collapseGo true cs
      else c :: collapseGo false cs

def collapseWs (l : List Char) : List Char := collapseGo false l

/-- The cleaning pipeline of `extractText` before the length cap. -/
def extractTextClean (l : List Char) : List Char :=
  trimL (collapseWs (decodeEntities (stripTags [' '] (removeScripts l))))

def dots3 : List Char := ['.', '.', '.']

/-- `text.length > 3000 ? text.substring(0, 3000) + '...' : text`. -/
def truncate3000 (l : List Char) : List Char :=
  if 3000 < l.length then l.take 3000 ++ dots3 else l

/-- `extractText` of `content-extractor.ts`. -/
def extractText (s : String) : String := ⟨truncate3000 (extractTextClean s.data)⟩

end Crawler

namespace Crawler

/-! ## Markdown text extraction (`browser-utils.ts` lines 430-458) -/

def fence3 : List Char := ['`', '`', '`']

/-- Lazy search for the next ` ``` `; remainder after it. -/
def findFence : Nat → List Char → Option (List Char)
  | 0, _ => none
  | _, [] => none
  | fuel + 1, c :: cs =>
      if startsWithL (c :: cs) fence3 then some ((c :: cs).drop 3)
      else findFence fuel cs

/-- `.replace(/```[\s\S]*?```/g, '')`. -/
def removeCodeBlocksF : Nat → List Char → List Char
  | 0, l => l
  | _, [] => []
  | fuel + 1, c :: cs =>
      if startsWithL (c :: cs) fence3 then
        match findFence (cs.length + 1) ((c :: cs).drop 3) with
        | some rest => removeCodeBlocksF fuel rest
        | none => c :: removeCodeBlocksF fuel cs
      else c :: removeCodeBlocksF fuel cs

/-- `.replace(/`[^`]*`/g, '')`. -/
def removeInlineCodeF : Nat → List Char → List Char
  | 0, l => l
  | _, [] => []
  | fuel + 1, c :: cs =>
      if c = '`' then
        match cs.dropWhile (fun x => x ≠ '`') with
        | '`' :: r => removeInlineCodeF fuel r
        | _ => c :: removeInlineCodeF fuel cs
      else c :: removeInlineCodeF fuel cs

/-- `.replace(/^#{1,6}\s+(.*)$/gm, '$1')`: at a line start, 1-6 `#`
followed by whitespace drops the hashes and the (greedy, possibly
newline-crossing) whitespace run; the captured rest is re-emitted and is
not rescanned for further header matches (the scanner state leaves
line-start mode). -/
def mdHeadersF : Nat → Bool → List Char → List Char
  | 0, _, l => l
  | _, _, [] => []
  | fuel + 1, atStart, c :: cs =>
      if c = '\n' then c :: mdHeadersF fuel true cs
      else if atStart ∧ c = '#' then
        let hashes := (c :: cs).takeWhile (fun x => x = '#')
        let rest := (c :: cs).drop hashes.length
        if hashes.length ≤ 6 ∧ (rest.head?.map isWsJS).getD false then
          mdHeadersF fuel false (rest.dropWhile isWsJS)
        else c :: mdHeadersF fuel false cs
      else c :: mdHeadersF fuel false cs

/-- One bold/italic unwrapping pass: `.replace(/d([^x]+)d/g, '$1')` where
`d` is the delimiter (`**`, `*`, `__` or `_`) and `x` its character. -/
def unwrapPairF (d : List Char) (inner : Char → Bool) : Nat → List Char → List Char
  | 0, l => l
  | _, [] => []
  | fuel + 1, c :: cs =>
      if startsWithL (c :: cs) d then
        let afterD := (c :: cs).drop d.length
        let content := afterD.takeWhile inner
        if content ≠ [] ∧ startsWithL (afterD.drop content.length) d then
          content ++ unwrapPairF d inner fuel ((afterD.drop content.length).drop d.length)
        else c :: unwrapPairF d inner fuel cs
      else c :: unwrapPairF d inner fuel cs

/-- `.replace(/\[([^\]]+)\]\(([^)]+)\)/g, '$1')`. -/
def mdLinksF : Nat → List Char → List Char
  | 0, l => l
  | _, [] => []
  | fuel + 1, c :: cs =>
      (if c = '[' then
        let txt := cs.takeWhile (fun x => x ≠ ']')
        match txt, cs.drop txt.length with
        | _ :: _, ']' :: '(' :: rest =>
            let url := rest.takeWhile (fun x => x ≠ ')')
            match url, rest.drop url.length with
            | _ :: _, ')' :: r => some (txt, r)
            | _, _ => none
        | _, _ => none
      else none).elim (c :: mdLinksF fuel cs) (fun (txt, r) => txt ++ mdLinksF fuel r)

/-- `.replace(/!\[[^\]]*\]\([^)]+\)/g, '')` (alt text may be empty). -/
def mdImagesF : Nat → List Char → List Char
  | 0, l => l
  | _, [] => []
  | fuel + 1, c :: cs =>
      (if c = '!' then
        match cs with
        | '[' :: cs2 =>
            let alt := cs2.takeWhile (fun x => x ≠ ']')
            match cs2.drop alt.length with
            | ']' :: '(' :: rest =>
                let url := rest.takeWhile (fun x => x ≠ ')')
                match url, rest.drop url.length with
                | _ :: _, ')' :: r => some r
                | _, _ => none
            | _ => none
        | _ => none
      else none).elim (c :: mdImagesF fuel cs) (fun r => mdImagesF fuel r)

/-- `.replace(/^---+$/gm, '')`: a line consisting of three or more
dashes is emptied (its newline survives). -/
def mdHrF : Nat → Bool → List Char → List Char
  | 0, _, l => l
  | _, _, [] => []
  | fuel + 1, atStart, c :: cs =>
      if c = '\n' then c :: mdHrF fuel true cs
      else if atStart ∧ c = '-' then
        let dashes := (c :: cs).takeWhile (fun x => x = '-')
        let rest := (c :: cs).drop dashes.length
        if 3 ≤ dashes.length ∧ (rest = [] ∨ rest.head? = some '\n') then
          mdHrF fuel false rest
        else c :: mdHrF fuel false cs
      else c :: mdHrF fuel false cs

/-- `.replace(/^>\s+/gm, '')`: at a line start, `>` plus a whitespace run
is dropped; the scanner is back at a line start exactly when the last
dropped whitespace character was a newline. -/
def mdQuoteF : Nat → Bool → List Char → List Char
  | 0, _, l => l
  | _, _, [] => []
  | fuel + 1, atStart, c :: cs =>
      if atStart ∧ c = '>' ∧ (cs.head?.map isWsJS).getD false then
        let run := cs.takeWhile isWsJS
        mdQuoteF fuel (run.getLast? = some '\n') (cs.drop run.length)
      else if c = '\n' then c :: mdQuoteF fuel true cs
      else c :: mdQuoteF fuel false cs

/-- The cleaning pipeline of `extractTextFromMarkdown` before the cap,
applying the source's replaces in order. -/
def extractMarkdownClean (l : List Char) : List Char :=
  let t1 := removeCodeBlocksF (l.length + 1) l
  let t2 := removeInlineCodeF (t1.length + 1) t1
  let t3 := mdHeadersF (t2.length + 1) true t2
  let t4 := unwrapPairF ['*', '*'] (fun c => c ≠ '*') (t3.length + 1) t3
  let t5 := unwrapPairF ['*'] (fun c => c ≠ '*') (t4.length + 1) t4
  let t6 := unwrapPairF ['_', '_'] (fun c => c ≠ '_') (t5.length + 1) t5
  let t7 := unwrapPairF ['_'] (fun c => c ≠ '_') (t6.length + 1) t6
  let t8 := mdLinksF (t7.length + 1) t7
  let t9 := mdImagesF (t8.length + 1) t8
  let t10 := mdHrF (t9.length + 1) true t9
  let t11 := mdQuoteF (t10.length + 1) true t10
  trimL (collapseWs t11)

/-- `extractTextFromMarkdown` of `browser-utils.ts`. -/
def extractTextFromMarkdown (s : String) : String :=
  ⟨truncate3000 (extractMarkdownClean s.data)⟩

end Crawler

namespace Crawler

/-! ## `generateLinkText` (`browser-utils.ts` lines 402-425) -/

def isWordChar (c : Char) : Bool := c.isAlphanum || c = '_'

/-- `.replace(/\b\w/g, l => l.toUpperCase())`. -/
def titleCaseGo : Bool → List Char → List Char
  | _, [] => []
  | prevW, c :: cs =>
      (if isWordChar c ∧ ¬prevW then c.toUpper else c) :: titleCaseGo (isWordChar c) cs

/-- `.replace(/\.[^.]*$/, '')`: drop the last `.` and everything after it
(no change when there is no dot). -/
def stripExt (l : List Char) : List Char :=
  if l.contains '.' then (l.reverse.dropWhile (fun c => c ≠ '.')).drop 1 |>.reverse
  else l

/-- `.replace(/[-_]/g, ' ')`. -/
def dashToSpace (l : List Char) : List Char :=
  l.map (fun c => if c = '-' ∨ c = '_' then ' ' else c)

def splitSlashGo : List Char → List Char → List (List Char)
  | acc, [] => [acc.reverse]
  | acc, c :: cs => if c = '/' then acc.reverse :: splitSlashGo [] cs else splitSlashGo (c :: acc) cs

/-- `pathname.split('/')`. -/
def splitSlash (l : List Char) : List (List Char) := splitSlashGo [] l

def wwwDot : String := "www."

/-- `.replace(/^www\./, '')`. -/
def stripWww (h : String) : String :=
  if startsWithS h wwwDot then ⟨h.data.drop 4⟩ else h

/-- `generateLinkText` of `browser-utils.ts`. -/
def generateLinkText (url : String) : String :=
  match parseURL url with
  | some u =>
      if u.pathname ≠ slashStr then
        match ((splitSlash u.pathname.data).filter (fun p => p ≠ [])).getLast? with
        | some lastPart => ⟨titleCaseGo false (dashToSpace (stripExt lastPart))⟩
        | none => stripWww u.hostname
      else stripWww u.hostname
  | none => if 50 < url.data.length then ⟨url.data.take 50 ++ dots3⟩ else url

/-! ## `extractLinks` (`content-extractor.ts` lines 37-78)

The anchor-matching regex supplies one `(href, inner markup)` pair per
match; the loop over those matches is embedded over that pair list. -/

def extractLinksLoop (baseObj : URLRec) (baseUrl : String) :
    List (String × String) → List ExtractedLink → List ExtractedLink
  | [], links => links
  | (href, raw) :: rest, links =>
      let linkText : String := ⟨trimL (collapseWs (stripTags [] raw.data))⟩
      if href = "" || isNonContentLink href || linkText = "" then
        extractLinksLoop baseObj baseUrl rest links
      else
        match resolveUrl href baseUrl with
        | none => extractLinksLoop baseObj baseUrl rest links
        | some absoluteUrl =>
            match parseURL absoluteUrl with
            | none => extractLinksLoop baseObj baseUrl rest links
            | some absObj =>
                if links.any (fun l => l.url = absoluteUrl) then
                  extractLinksLoop baseObj baseUrl rest links
                else
                  extractLinksLoop baseObj baseUrl rest
                    (links ++ [{ url := absoluteUrl, text := linkText
                               , type := if absObj.hostname = baseObj.hostname then
                                   LinkType.internal else LinkType.external }])

/-- `extractLinks`: `none` models `new URL(baseUrl)` throwing on an
invalid base URL (which in the source escapes to the caller). -/
def extractLinks (baseUrl : String) (anchors : List (String × String)) :
    Option (List ExtractedLink) :=
  (parseURL baseUrl).map (fun baseObj => extractLinksLoop baseObj baseUrl anchors [])

/-! ## `processExtractedLinks` (`browser-utils.ts` lines 363-397) -/

def processLinksLoop (baseObj : URLRec) (baseUrl : String) :
    List String → List ExtractedLink → List ExtractedLink
  | [], links => links
  | url :: rest, links =>
      if isNonContentLink url then processLinksLoop baseObj baseUrl rest links
      else
        match resolveUrl url baseUrl with
        | none => processLinksLoop baseObj baseUrl rest links
        | some absoluteUrl =>
            match parseURL absoluteUrl with
            | none => processLinksLoop baseObj baseUrl rest links
            | some absObj =>
                if links.any (fun l => l.url = absoluteUrl) then
                  processLinksLoop baseObj baseUrl rest links
                else
                  processLinksLoop baseObj baseUrl rest
                    (links ++ [{ url := absoluteUrl, text := generateLinkText absoluteUrl
                               , type := if absObj.hostname = baseObj.hostname then
                                   LinkType.internal else LinkType.external }])

def processExtractedLinks (extractedLinks : List String) (baseUrl : String) :
    Option (List ExtractedLink) :=
  (parseURL baseUrl).map (fun baseObj => processLinksLoop baseObj baseUrl extractedLinks [])

end Crawler

namespace Crawler

/-! ## Computable rational arithmetic

Batteries marks `Rat.add`/`Rat.sub`/`Rat.mul`/`Rat.div` and decimal
literals (`Rat.ofScientific`) `@[irreducible]`, which blocks `decide`
on concrete runs of the embedded code.  The embedding therefore uses
normalized-fraction arithmetic (`qadd`, `qsub`, `mkRat` constants),
proved equal to the ordinary operations below. -/

def qadd (a b : ℚ) : ℚ := mkRat (a.num * b.den + b.num * a.den) (a.den * b.den)

def qsub (a b : ℚ) : ℚ := mkRat (a.num * b.den - b.num * a.den) (a.den * b.den)

theorem qadd_eq (a b : ℚ) : qadd a b = a + b := by
  rw [Rat.add_def, qadd, Rat.mkRat_def]
  rw [dif_neg (Nat.mul_ne_zero a.den_nz b.den_nz)]

theorem qsub_eq (a b : ℚ) : qsub a b = a - b := by
  rw [Rat.sub_def, qsub, Rat.mkRat_def]
  rw [dif_neg (Nat.mul_ne_zero a.den_nz b.den_nz)]

/-- `0.4`, the per-token display-text increment. -/
def qPt4 : ℚ := mkRat 2 5

/-- `0.3`, the per-token URL increment and the full-query text bonus. -/
def qPt3 : ℚ := mkRat 3 10

/-- `0.2`, the full-query URL bonus and the admission floor. -/
def qPt2 : ℚ := mkRat 1 5

/-- `0.1`, the default fallback threshold. -/
def qPt1 : ℚ := mkRat 1 10

/-- `0.05`, the short-query fallback threshold. -/
def qPt05 : ℚ := mkRat 1 20

/-! ## `fallbackTextAnalysis` (`ai-link-analyzer.ts` lines 261-298) -/

/-- `String.prototype.split(/\s+/)`: fields between maximal whitespace
runs, with an empty leading/trailing field when the string starts/ends
with whitespace (`some acc` = currently building a field, `none` = just
consumed part of a separator run). -/
def splitWsAux : Option (List Char) → List Char → List (List Char)
  | some acc, [] => [acc.reverse]
  | none, [] => [[]]
  | some acc, c :: cs =>
      if isWsJS c then acc.reverse :: splitWsAux none cs else splitWsAux (some (c :: acc)) cs
  | none, c :: cs =>
      if isWsJS c then splitWsAux none cs else splitWsAux (some [c]) cs

def splitWsJS (l : List Char) : List (List Char) := splitWsAux (some []) l

def reasonMatch : String := "Text matching fallback analysis"
def reasonNoMatch : String := "No text match found"
def fallbackInterpStart : String := "Fallback text analysis for: \""
def quoteStr : String := "\""

/-- The per-link score loop and bonuses of `fallbackTextAnalysis`. -/
def fallbackScore (textLower urlLower queryLower : List Char)
    (queryWords : List (List Char)) : ℚ :=
  let base := queryWords.foldl (fun s w =>
    let s1 := if containsSubL textLower w then qadd s qPt4 else s
    if containsSubL urlLower w then qadd s1 qPt3 else s1) 0
  let b1 := if containsSubL textLower queryLower then qadd base qPt3 else base
  let b2 := if containsSubL urlLower queryLower then qadd b1 qPt2 else b1
  min 1 b2

def fallbackTextAnalysis (links : List ExtractedLink) (query : String)
    (minThreshold : ℚ) : LinkAnalysisResult :=
  let queryLower := lowerL query.data
  let queryWords := (splitWsJS queryLower).filter (fun w => 2 < w.length)
  let analyzedLinks :=
    sortDesc (fun a => a.relevanceScore)
      ((links.map (fun link =>
        let score := fallbackScore (lowerL link.text.data) (lowerL link.url.data)
          queryLower queryWords
        { url := some link.url, text := some link.text, type := some link.type
        , relevanceScore := score
        , reasoning := if 0 < score then reasonMatch else reasonNoMatch : AnalyzedLink })).filter
        (fun a => minThreshold < a.relevanceScore))
  { relevantLinks := analyzedLinks
  , totalAnalyzed := links.length
  , queryInterpretation := fallbackInterpStart ++ query ++ quoteStr }

/-! ## JSON values and `JSON.parse` (used by `parseAIResponse`)

`JSON.parse` is a platform primitive; it is modelled by a strict
recursive-descent JSON reader over `ℚ` numbers ( JSON has no `NaN` or
infinities, so every parsed number is a finite decimal). -/

inductive Json where
  | null
  | bool (b : Bool)
  | num (q : ℚ)
  | str (s : String)
  | arr (elems : List Json)
  | obj (fields : List (String × Json))

def Json.isNull : Json → Bool
  | .null => true
  | _ => false

/-- JSON whitespace (strict: space, tab, newline, carriage return). -/
def isJWs (c : Char) : Bool := c = ' ' || c = '\t' || c = '\n' || c = '\r'

def skipWsJ (l : List Char) : List Char := l.dropWhile isJWs

def isHexDig (c : Char) : Bool :=
  c.isDigit || ('a' ≤ c && c ≤ 'f') || ('A' ≤ c && c ≤ 'F')

def hexVal (c : Char) : Nat :=
  if c.isDigit then c.toNat - 48
  else if 'a' ≤ c ∧ c ≤ 'f' then c.toNat - 87
  else c.toNat - 55

/-- JSON string body after the opening quote. -/
def parseJStr : Nat → List Char → List Char → Option (String × List Char)
  | 0, _, _ => none
  | _, _, [] => none
  | fuel + 1, acc, c :: r =>
      if c = '"' then some (⟨acc.reverse⟩, r)
      else if c = '\\' then
        match r with
        | [] => none
        | e :: r2 =>
            if e = '"' then parseJStr fuel ('"' :: acc) r2
            else if e = '\\' then parseJStr fuel ('\\' :: acc) r2
            else if e = '/' then parseJStr fuel ('/' :: acc) r2
            else if e = 'b' then parseJStr fuel (Char.ofNat 8 :: acc) r2
            else if e = 'f' then parseJStr fuel (Char.ofNat 12 :: acc) r2
            else if e = 'n' then parseJStr fuel ('\n' :: acc) r2
            else if e = 'r' then parseJStr fuel ('\r' :: acc) r2
            else if e = 't' then parseJStr fuel ('\t' :: acc) r2
            else if e = 'u' then
              match r2 with
              | h1 :: h2 :: h3 :: h4 :: r3 =>
                  if isHexDig h1 ∧ isHexDig h2 ∧ isHexDig h3 ∧ isHexDig h4 then
                    parseJStr fuel
                      (Char.ofNat (((hexVal h1 * 16 + hexVal h2) * 16 + hexVal h3) * 16 + hexVal h4) :: acc) r3
                  else none
              | _ => none
            else none
      else if c.toNat < 32 then none
      else parseJStr fuel (c :: acc) r

def digitsVal (l : List Char) : Nat := l.foldl (fun n c => n * 10 + (c.toNat - 48)) 0

/-- Optional `[eE][+-]?digits` exponent suffix. -/
def parseExpPart (l : List Char) : Option (Int × List Char) :=
  match l with
  | e :: r =>
      if e = 'e' ∨ e = 'E' then
        let (sgn, r2) : Int × List Char :=
          match r with
          | '+' :: t => (1, t)
          | '-' :: t => (-1, t)
          | _ => (1, r)
        let ds := r2.takeWhile Char.isDigit
        if ds = [] then none else some (sgn * (digitsVal ds : Int), r2.drop ds.length)
      else some (0, l)
  | [] => some (0, [])

/-- Strict JSON number grammar `-?(0|[1-9]\d*)(\.\d+)?([eE][+-]?\d+)?`. -/
def parseJNum (l : List Char) : Option (Json × List Char) :=
  let (neg, l1) : Bool × List Char := match l with | '-' :: r => (true, r) | _ => (false, l)
  let intPart := l1.takeWhile Char.isDigit
  match intPart with
  | [] => none
  | d :: ds =>
      if d = '0' ∧ ds ≠ [] then none
      else
        let l2 := l1.drop intPart.length
        let fracStep : Option (List Char × List Char) :=
          match l2 with
          | '.' :: r =>
              let f := r.takeWhile Char.isDigit
              if f = [] then none else some (f, r.drop f.length)
          | _ => some ([], l2)
        match fracStep with
        | none => none
        | some (frac, l3) =>
            match parseExpPart l3 with
            | none => none
            | some (ex, l4) =>
                let m : Int := (digitsVal intPart * 10 ^ frac.length + digitsVal frac : Nat)
                let e : Int := ex - (frac.length : Int)
                let sm : Int := if neg then -m else m
                some (.num (if 0 ≤ e then mkRat (sm * 10 ^ e.toNat) 1 else mkRat sm (10 ^ (-e).toNat)), l4)

/-- Parser modes: a plain value, or the element/member loop of a
non-empty array/object with the elements parsed so far. -/
inductive PMode where
  | value
  | arrItems (acc : List Json)
  | objItems (acc : List (String × Json))

def parseJ : Nat → PMode → List Char → Option (Json × List Char)
  | 0, _, _ => none
  | fuel + 1, PMode.value, l =>
      let l1 := skipWsJ l
      match l1 with
      | '{' :: r =>
          match skipWsJ r with
          | '}' :: r2 => some (.obj [], r2)
          | _ => parseJ fuel (PMode.objItems []) r
      | '[' :: r =>
          match skipWsJ r with
          | ']' :: r2 => some (.arr [], r2)
          | _ => parseJ fuel (PMode.arrItems []) r
      | '"' :: r => (parseJStr (r.length + 1) [] r).map (fun p => (.str p.1, p.2))
      | 'n' :: 'u' :: 'l' :: 'l' :: r => some (.null, r)
      | 't' :: 'r' :: 'u' :: 'e' :: r => some (.bool true, r)
      | 'f' :: 'a' :: 'l' :: 's' :: 'e' :: r => some (.bool false, r)
      | _ => parseJNum l1
  | fuel + 1, PMode.arrItems acc, l =>
      match parseJ fuel PMode.value l with
      | none => none
      | some (v, rest) =>
          match skipWsJ rest with
          | ',' :: r2 => parseJ fuel (PMode.arrItems (acc ++ [v])) r2
          | ']' :: r2 => some (.arr (acc ++ [v]), r2)
          | _ => none
  | fuel + 1, PMode.objItems acc, l =>
      match skipWsJ l with
      | '"' :: r =>
          match parseJStr (r.length + 1) [] r with
          | none => none
          | some (k, rest) =>
              match skipWsJ rest with
              | ':' :: r2 =>
                  match parseJ fuel PMode.value r2 with
                  | none => none
                  | some (v, rest2) =>
                      match skipWsJ rest2 with
                      | ',' :: r3 => parseJ fuel (PMode.objItems (acc ++ [(k, v)])) r3
                      | '}' :: r3 => some (.obj (acc ++ [(k, v)]), r3)
                      | _ => none
              | _ => none
      | _ => none

/-- `JSON.parse`: a complete value with only trailing whitespace. -/
def jsonParse (l : List Char) : Option Json :=
  match parseJ (2 * l.length + 8) PMode.value l with
  | some (v, rest) => if skipWsJ rest = [] then some v else none
  | none => none

end Crawler

namespace Crawler

/-! ## Response extraction and repair (`parseAIResponse`, lines 170-199) -/

/-- Everything from the first occurrence of `c` on (`none` if absent). -/
def dropBefore (c : Char) : List Char → Option (List Char)
  | [] => none
  | a :: as => if a = c then some (a :: as) else dropBefore c as

/-- The longest prefix ending with the last occurrence of `c`. -/
def takeThruLast (c : Char) (l : List Char) : Option (List Char) :=
  (dropBefore c l.reverse).map List.reverse

/-- `cleanResponse.match(/\{[\s\S]*\}/)`: greedy, so the span runs from
the first `\x7b` to the last `\x7d` (when the latter is further right). -/
def naiveMatch (l : List Char) : Option (List Char) :=
  match dropBefore '{' l with
  | none => none
  | some t => (takeThruLast '}' (t.drop 1)).map (fun u => '{' :: u)

def jsonWord : List Char := ['j', 's', 'o', 'n']

/-- Is the remainder, after `\s*`, an opening fence? -/
def fenceAfterWs (l : List Char) : Bool := startsWithL (l.dropWhile isWsJS) fence3

/-- The lazy `[\s\S]*?\}` group body: up to the first `\x7d` that is
followed by `\s*` and a closing fence. -/
def lazyCloseBrace : List Char → Option (List Char)
  | [] => none
  | c :: cs =>
      if c = '}' ∧ fenceAfterWs cs then some ['}']
      else (lazyCloseBrace cs).map (fun g => c :: g)

/-- Match `/```(?:json)?\s*(\{[\s\S]*?\})\s*```/` anchored at the head,
returning the captured group. -/
def fencedHere (l : List Char) : Option (List Char) :=
  if startsWithL l fence3 then
    let r := l.drop 3
    let r2 := if startsWithL r jsonWord then r.drop 4 else r
    match r2.dropWhile isWsJS with
    | '{' :: rest => (lazyCloseBrace rest).map (fun g => '{' :: g)
    | _ => none
  else none

/-- `cleanResponse.match(/```(?:json)?\s*(\{[\s\S]*?\})\s*```/)`:
first match over all start positions. -/
def codeBlockMatch : List Char → Option (List Char)
  | [] => none
  | c :: cs => (fencedHere (c :: cs)).elim (codeBlockMatch cs) some

/-- Lines 175-182: the naive brace span is attempted first, the fenced
block only when that failed. -/
def extractJsonSpan (l : List Char) : Option (List Char) :=
  match naiveMatch l with
  | some t => some t
  | none => codeBlockMatch l

/-- `.replace(/,(\s*[}\]])/g, '$1')`: drop trailing commas. -/
def repair1F : Nat → List Char → List Char
  | 0, l => l
  | _, [] => []
  | fuel + 1, c :: cs =>
      if c = ',' then
        let ws := cs.takeWhile isWsJS
        match cs.drop ws.length with
        | b :: r =>
            if b = '}' ∨ b = ']' then ws ++ b :: repair1F fuel r
            else c :: repair1F fuel cs
        | [] => c :: repair1F fuel cs
      else c :: repair1F fuel cs

end Crawler

namespace Crawler

def isIdentStart (c : Char) : Bool := c.isAlpha || c = '_'

def isIdentChar (c : Char) : Bool := c.isAlpha || c.isDigit || c = '_'

/-- `.replace(/([{,]\s*)([a-zA-Z_][a-zA-Z0-9_]*)\s*:/g, '$1"$2":')`:
quote bare keys (the whitespace before the colon is not re-emitted). -/
def repair2F : Nat → List Char → List Char
  | 0, l => l
  | _, [] => []
  | fuel + 1, c :: cs =>
      if c = '{' ∨ c = ',' then
        let ws := cs.takeWhile isWsJS
        let afterWs := cs.drop ws.length
        match afterWs with
        | i :: _ =>
            if isIdentStart i then
              let ident := afterWs.takeWhile isIdentChar
              let afterIdent := afterWs.drop ident.length
              let ws2 := afterIdent.takeWhile isWsJS
              match afterIdent.drop ws2.length with
              | ':' :: r => c :: ws ++ '"' :: ident ++ '"' :: ':' :: repair2F fuel r
              | _ => c :: repair2F fuel cs
            else c :: repair2F fuel cs
        | [] => c :: repair2F fuel cs
      else c :: repair2F fuel cs

/-- `.replace(/:\s*([a-zA-Z_][a-zA-Z0-9_]*)\s*([,}])/g, ':"$1"$2')`:
quote bare identifier values. -/
def repair3F : Nat → List Char → List Char
  | 0, l => l
  | _, [] => []
  | fuel + 1, c :: cs =>
      if c = ':' then
        let ws := cs.takeWhile isWsJS
        let afterWs := cs.drop ws.length
        match afterWs with
        | i :: _ =>
            if isIdentStart i then
              let ident := afterWs.takeWhile isIdentChar
              let afterIdent := afterWs.drop ident.length
              let ws2 := afterIdent.takeWhile isWsJS
              match afterIdent.drop ws2.length with
              | b :: r =>
                  if b = ',' ∨ b = '}' then c :: '"' :: ident ++ '"' :: b :: repair3F fuel r
                  else c :: repair3F fuel cs
              | [] => c :: repair3F fuel cs
            else c :: repair3F fuel cs
        | [] => c :: repair3F fuel cs
      else c :: repair3F fuel cs

/-- The three sequential textual repairs of lines 192-196. -/
def repairJson (l : List Char) : List Char :=
  let t1 := repair1F (l.length + 1) l
  let t2 := repair2F (t1.length + 1) t1
  repair3F (t2.length + 1) t2

/-! ## `parseAIResponse` (`ai-link-analyzer.ts` lines 163-256) -/

/-- Object member lookup with JavaScript `JSON.parse` semantics: the
last duplicate key wins. -/
def lookupField : List (String × Json) → String → Option Json
  | [], _ => none
  | (k, v) :: rest, key =>
      match lookupField rest key with
      | some r => some r
      | none => if k = key then some v else none

/-- Property access `value.key` on a non-null JSON value (`undefined` is
`none`; access on `null` throws and is handled by the caller). -/
def fieldOf : Json → String → Option Json
  | .obj kvs, key => lookupField kvs key
  | _, _ => none

/-- `originalLinks[linkIndex]` for a JavaScript numeric index: an
integral in-bounds index selects the element, anything else is
`undefined`. -/
def getAtQ (links : List ExtractedLink) (i : ℚ) : Option ExtractedLink :=
  if i.den = 1 ∧ 0 ≤ i.num then links.get? i.num.toNat else none

def keyLinks : String := "links"
def keyIndex : String := "index"
def keyScore : String := "relevanceScore"
def keyReasoning : String := "reasoning"
def keyQI : String := "queryInterpretation"
def noReasoning : String := "No reasoning provided"
def noInterpretation : String := "Query analysis not provided"

/-- The `for (const linkAnalysis of links)` loop of lines 207-237.  A
`null` entry throws (`linkAnalysis.index` is a property access on
`null`), which the enclosing `try` converts into a `parseAIResponse`
failure: hence `Except`. -/
def processEntries (originalLinks : List ExtractedLink) : List Json → Except Unit (List AnalyzedLink)
  | [] => .ok []
  | e :: rest =>
      if e.isNull then .error ()
      else
        match fieldOf e keyIndex, fieldOf e keyScore with
        | some (.num idx), some (.num sc) =>
            let linkIndex := qsub idx 1
            if 0 ≤ linkIndex ∧ linkIndex < (originalLinks.length : ℚ) then
              let originalLink := getAtQ originalLinks linkIndex
              let score := max 0 (min 1 sc)
              let reasoning :=
                match fieldOf e keyReasoning with
                | some (.str r) => if trimS r ≠ "" then trimS r else noReasoning
                | _ => noReasoning
              let analyzedLink : AnalyzedLink :=
                { url := originalLink.map (fun o => o.url)
                , text := originalLink.map (fun o => o.text)
                , type := originalLink.map (fun o => o.type)
                , relevanceScore := score, reasoning := reasoning }
              if qPt2 ≤ score then (processEntries originalLinks rest).map (fun tl => analyzedLink :: tl)
              else processEntries originalLinks rest
            else processEntries originalLinks rest
        | _, _ => processEntries originalLinks rest

/-- The record returned by a successful `parseAIResponse`. -/
structure ParsedAnalysis where
  relevantLinks : List AnalyzedLink
  queryInterpretation : String
deriving DecidableEq

/-- Lines 201-251: the post-parse stage of `parseAIResponse` — read
`parsed.links`, run the admission loop, sort, and default the
interpretation. -/
def analyzeParsed (parsed : Json) (originalLinks : List ExtractedLink) :
    Except Unit ParsedAnalysis :=
  let entries :=
    match fieldOf parsed keyLinks with
    | some (.arr xs) => xs
    | _ => []
  match processEntries originalLinks entries with
  | .error e => .error e
  | .ok relevantLinks =>
      let queryInterpretation :=
        match fieldOf parsed keyQI with
        | some (.str s) => if trimS s ≠ "" then trimS s else noInterpretation
        | _ => noInterpretation
      .ok { relevantLinks := sortDesc (fun a => a.relevanceScore) relevantLinks
          , queryInterpretation := queryInterpretation }

def parseAIResponse (aiResponse : String) (originalLinks : List ExtractedLink) :
    Except Unit ParsedAnalysis :=
  let cleanResponse := trimL aiResponse.data
  match extractJsonSpan cleanResponse with
  | none => .error ()
  | some span =>
      let parsed? :=
        match jsonParse span with
        | some p => some p
        | none => jsonParse (repairJson span)
      match parsed? with
      | none => .error ()
      | some parsed => analyzeParsed parsed originalLinks

/-! ## `analyzeLinksWithAI` (`ai-link-analyzer.ts` lines 22-97)

The single model invocation is an explicit `Except Unit String`
parameter: `.error` models `ai.run` throwing, `.ok s` models a response
whose text (after the source's stringification of non-string responses)
is `s`. -/

def emptyQueryInterp : String := "Empty query provided"
def noLinksInterp : String := "No links found on the page to analyze"
def enhancedSuffix : String := " (enhanced with text matching)"

def analyzeLinksWithAI (modelResponse : Except Unit String)
    (extractedContent : ExtractedContent) (userQuery : String)
    (maxLinks : Nat) : LinkAnalysisResult :=
  if userQuery = "" ∨ trimS userQuery = "" then
    { relevantLinks := [], totalAnalyzed := 0, queryInterpretation := emptyQueryInterp }
  else
    let linksToAnalyze := extractedContent.links.take maxLinks
    if linksToAnalyze = [] then
      { relevantLinks := [], totalAnalyzed := 0, queryInterpretation := noLinksInterp }
    else
      let isShortQuery := (splitWsJS (trimS userQuery).data).length ≤ 2
      match modelResponse with
      | .error _ =>
          fallbackTextAnalysis linksToAnalyze userQuery (if isShortQuery then qPt05 else qPt1)
      | .ok aiResponseText =>
          match parseAIResponse aiResponseText linksToAnalyze with
          | .error _ =>
              fallbackTextAnalysis linksToAnalyze userQuery (if isShortQuery then qPt05 else qPt1)
          | .ok analysisResult =>
              if analysisResult.relevantLinks = [] ∧ isShortQuery then
                let fallbackResult := fallbackTextAnalysis linksToAnalyze userQuery qPt05
                if fallbackResult.relevantLinks ≠ [] then
                  { fallbackResult with
                      queryInterpretation := analysisResult.queryInterpretation ++ enhancedSuffix }
                else
                  { relevantLinks := analysisResult.relevantLinks
                  , totalAnalyzed := linksToAnalyze.length
                  , queryInterpretation := analysisResult.queryInterpretation }
              else
                { relevantLinks := analysisResult.relevantLinks
                , totalAnalyzed := linksToAnalyze.length
                , queryInterpretation := analysisResult.queryInterpretation }

end Crawler

namespace Crawler

instance exceptDecEq {ε α : Type} [DecidableEq ε] [DecidableEq α] :
    DecidableEq (Except ε α) := fun a b =>
  match a, b with
  | .error e, .error f =>
      if h : e = f then .isTrue (by rw [h]) else .isFalse (fun hh => h (Except.error.inj hh))
  | .ok x, .ok y =>
      if h : x = y then .isTrue (by rw [h]) else .isFalse (fun hh => h (Except.ok.inj hh))
  | .error _, .ok _ => .isFalse (fun hh => Except.noConfusion hh)
  | .ok _, .error _ => .isFalse (fun hh => Except.noConfusion hh)

/-! ## Claim C4: relative-path resolution -/

def hrefC4 : String := "../docs/page.html"
def baseC4 : String := "https://example.com/blog/post"
def actualC4 : String := "https://example.com/blog/../docs/page.html"
def claimedC4 : String := "https://example.com/docs/page.html"

/-- Claim C4 is false on the code: resolving `"../docs/page.html"`
against `"https://example.com/blog/post"` yields the unnormalized
string `"https://example.com/blog/../docs/page.html"`, not the claimed
`"https://example.com/docs/page.html"` — `resolveUrl` concatenates the
href onto the base directory without `..` dot-segment normalization. -/
theorem C4_counterexample :
    resolveUrl hrefC4 baseC4 = some actualC4 ∧ actualC4 ≠ claimedC4 := by
  constructor
  · decide
  · decide

/-- Claim C4 as amended: the href is appended to the base URL's
directory (path with the trailing segment stripped) by string
concatenation, yielding exactly
`"https://example.com/blog/../docs/page.html"`; the result still parses
as an absolute URL (it denotes the claimed location after dot-segment
normalization, which `resolveUrl` does not perform). -/
theorem C4_resolveUrl_appends_to_base_directory :
    resolveUrl hrefC4 baseC4 = some actualC4 ∧ (parseURL actualC4).isSome = true := by
  constructor
  · decide
  · decide

/-! ## Claim C8: `isNonContentLink` and fragments -/

def fragPageUrl : String := "https://example.com/docs#intro"

/-- Claim C8 meets a code bug: the `'#'` entry of `nonContentPatterns`
is checked with `url.includes(pattern)`, so `isNonContentLink` returns
`true` for every URL merely containing `#` — including the ordinary
page URL `"https://example.com/docs#intro"` — although the source's own
comment on that entry says `// Fragment-only links` and the claim
(with the spec) accordingly expects `false` for non-fragment-only URLs. -/
theorem C8_fragment_suffix_rejected : isNonContentLink fragPageUrl = true := by decide

end Crawler

namespace Crawler

/-! ## Claim C10: the analyzer does not de-duplicate model indices -/

def dupLink1 : ExtractedLink :=
  { url := "https://site.test/a", text := "Alpha", type := LinkType.internal }
def dupLink2 : ExtractedLink :=
  { url := "https://site.test/b", text := "Beta", type := LinkType.external }
def dupContent : ExtractedContent := { links := [dupLink1, dupLink2], pageText := "" }
def dupQuery : String := "documentation about crawling"
def dupUrl : Option String := some ("https://site.test/a")

def dupResponse : String :=
  "\x7b\"queryInterpretation\":\"q\",\"links\":[\x7b\"index\":1,\"relevanceScore\":0.9,\"reasoning\":\"a\"\x7d,\x7b\"index\":1,\"relevanceScore\":0.8,\"reasoning\":\"b\"\x7d]\x7d"

/-- Claim C10 holds: for a model response repeating the valid 1-based
index 1 in two entries with scores 0.9 and 0.8, `analyzeLinksWithAI`
returns two `AnalyzedLink`s with the identical url
`"https://site.test/a"` — `parseAIResponse` does not de-duplicate
model-returned indices. -/
theorem C10_duplicate_indices_duplicate_urls :
    ((analyzeLinksWithAI (.ok dupResponse) dupContent dupQuery 20).relevantLinks.map
      (fun a => a.url)) = [dupUrl, dupUrl] := by decide

end Crawler


namespace Crawler

/-! ## Claim C3: `fallbackTextAnalysis` against its reference definition -/

theorem qPt4_eq : qPt4 = (0.4 : ℚ) := by
  rw [qPt4, Rat.mkRat_eq_div]; norm_num

theorem qPt3_eq : qPt3 = (0.3 : ℚ) := by
  rw [qPt3, Rat.mkRat_eq_div]; norm_num

theorem qPt2_eq : qPt2 = (0.2 : ℚ) := by
  rw [qPt2, Rat.mkRat_eq_div]; norm_num

theorem qPt1_eq : qPt1 = (0.1 : ℚ) := by
  rw [qPt1, Rat.mkRat_eq_div]; norm_num

theorem qPt05_eq : qPt05 = (0.05 : ℚ) := by
  rw [qPt05, Rat.mkRat_eq_div]; norm_num

/-- Reference scorer, written from the claim: `0.4` per token that is a
substring of the lowered display text plus `0.3` per token that is a
substring of the lowered URL, plus a flat `0.3` when the full lowered
query is a substring of the display text and a flat `0.2` when it is a
substring of the URL, capped at `1.0`. -/
def fallbackScoreSpec (link : ExtractedLink) (queryLower : List Char)
    (tokens : List (List Char)) : ℚ :=
  min 1
    (0.4 * ((tokens.filter (fun w => containsSubL (lowerL link.text.data) w)).length : ℚ)
      + 0.3 * ((tokens.filter (fun w => containsSubL (lowerL link.url.data) w)).length : ℚ)
      + (if containsSubL (lowerL link.text.data) queryLower then 0.3 else 0)
      + (if containsSubL (lowerL link.url.data) queryLower then 0.2 else 0))

/-- Reference form of `fallbackTextAnalysis`, written from the claim:
tokens are the lowered query split on whitespace keeping only tokens of
length > 2; exactly the links whose score strictly exceeds
`minThreshold` are retained, stably sorted non-increasing by score;
`totalAnalyzed` is the input link count.  (The reasoning strings are the
source's fixed placeholders, which the claim does not constrain.) -/
def fallbackTextAnalysisSpec (links : List ExtractedLink) (query : String)
    (minThreshold : ℚ) : LinkAnalysisResult :=
  let queryLower := lowerL query.data
  let tokens := (splitWsJS queryLower).filter (fun w => 2 < w.length)
  { relevantLinks :=
      sortDesc (fun a => a.relevanceScore)
        ((links.map (fun link =>
          ({ url := some link.url, text := some link.text, type := some link.type
           , relevanceScore := fallbackScoreSpec link queryLower tokens
           , reasoning := if 0 < fallbackScoreSpec link queryLower tokens then reasonMatch
               else reasonNoMatch } : AnalyzedLink))).filter
          (fun a => minThreshold < a.relevanceScore))
  , totalAnalyzed := links.length
  , queryInterpretation := fallbackInterpStart ++ query ++ quoteStr }

theorem fallback_fold (tl ul : List Char) (ws : List (List Char)) (s : ℚ) :
    ws.foldl (fun s w =>
      let s1 := if containsSubL tl w then qadd s qPt4 else s
      if containsSubL ul w then qadd s1 qPt3 else s1) s
    = s + 0.4 * ((ws.filter (fun w => containsSubL tl w)).length : ℚ)
        + 0.3 * ((ws.filter (fun w => containsSubL ul w)).length : ℚ) := by
  induction ws generalizing s with
  | nil => simp
  | cons w ws ih =>
      simp only [List.foldl_cons, List.filter_cons]
      rw [ih]
      by_cases h1 : containsSubL tl w
      · by_cases h2 : containsSubL ul w
        · simp only [h1, h2, ite_true, qadd_eq, qPt4_eq, qPt3_eq, List.length_cons]
          push_cast
          ring
        · simp only [h1, h2, Bool.false_eq_true, ite_false, ite_true, qadd_eq, qPt4_eq,
            List.length_cons]
          push_cast
          ring
      · by_cases h2 : containsSubL ul w
        · simp only [h1, h2, Bool.false_eq_true, ite_false, ite_true, qadd_eq, qPt3_eq,
            List.length_cons]
          push_cast
          ring
        · simp only [h1, h2, Bool.false_eq_true, ite_false]

theorem fallbackScore_eq (link : ExtractedLink) (ql : List Char) (ws : List (List Char)) :
    fallbackScore (lowerL link.text.data) (lowerL link.url.data) ql ws =
    fallbackScoreSpec link ql ws := by
  unfold fallbackScore fallbackScoreSpec
  rw [fallback_fold]
  by_cases h1 : containsSubL (lowerL link.text.data) ql
  · by_cases h2 : containsSubL (lowerL link.url.data) ql
    · simp only [h1, h2, ite_true, qadd_eq, qPt3_eq, qPt2_eq]
      ring_nf
    · simp only [h1, h2, Bool.false_eq_true, ite_false, ite_true, qadd_eq, qPt3_eq]
      ring_nf
  · by_cases h2 : containsSubL (lowerL link.url.data) ql
    · simp only [h1, h2, Bool.false_eq_true, ite_false, ite_true, qadd_eq, qPt2_eq]
      ring_nf
    · simp only [h1, h2, Bool.false_eq_true, ite_false]
      ring_nf

/-- Claim C3: `fallbackTextAnalysis` equals the claim's reference
definition; its retained links are stably sorted non-increasing by
score, every retained link strictly exceeds the threshold, and
`totalAnalyzed` is the input link count. -/
theorem C3_fallback_matches_reference (links : List ExtractedLink) (query : String)
    (minThreshold : ℚ) :
    fallbackTextAnalysis links query minThreshold =
      fallbackTextAnalysisSpec links query minThreshold ∧
    ((fallbackTextAnalysis links query minThreshold).relevantLinks).Pairwise
      (fun x y => y.relevanceScore ≤ x.relevanceScore) ∧
    (∀ a ∈ (fallbackTextAnalysis links query minThreshold).relevantLinks,
      minThreshold < a.relevanceScore) ∧
    (fallbackTextAnalysis links query minThreshold).totalAnalyzed = links.length := by
  refine ⟨?_, ?_, ?_, rfl⟩
  · simp only [fallbackTextAnalysis, fallbackTextAnalysisSpec]
    congr 1
    congr 1
    congr 1
    apply List.map_congr_left
    intro link _
    rw [fallbackScore_eq]
  · exact pairwise_sortDesc _ _
  · intro a ha
    have ha' := (mem_sortDesc _ _ _).mp ha
    have := (List.mem_filter.mp ha').2
    exact of_decide_eq_true this

end Crawler

namespace Crawler

def queryC3 : String := "alpha"

def memberC3 : AnalyzedLink :=
  { url := some ("https://site.test/a"), text := some ("Alpha")
  , type := some LinkType.internal, relevanceScore := mkRat 7 10, reasoning := reasonMatch }

/-- Witness for C3 at a concrete run: the single retained link of
`fallbackTextAnalysis [dupLink1] "alpha" 0.1` scores `0.7 > 0.1`. -/
theorem C3_witness : qPt1 < memberC3.relevanceScore :=
  (C3_fallback_matches_reference [dupLink1] queryC3 qPt1).2.2.1 memberC3 (by decide)

/-! ## Claim C2: model failure degrades to the fallback strategy -/

def fallbackPrefix : String := "Fallback text analysis for:"
def spaceQuote : String := " \""

theorem interp_has_prefix (q : String) :
    fallbackInterpStart ++ q ++ quoteStr = fallbackPrefix ++ (spaceQuote ++ q ++ quoteStr) := by
  have h : fallbackInterpStart = fallbackPrefix ++ spaceQuote := by decide
  rw [h, String.append_assoc, String.append_assoc, String.append_assoc]

/-- Claim C2: with a non-empty (post-trim) query and a non-empty bounded
link list, if the model call throws or its response fails to parse,
`analyzeLinksWithAI` returns exactly `fallbackTextAnalysis` over the
bounded list at threshold 0.1 — 0.05 when the trimmed query has at most
2 whitespace-separated words — and the result's `queryInterpretation`
begins with `"Fallback text analysis for:"`. -/
theorem C2_failure_falls_back (mo : Except Unit String) (content : ExtractedContent)
    (query : String) (maxLinks : Nat)
    (hq : trimS query ≠ "")
    (hl : content.links.take maxLinks ≠ [])
    (hfail : mo = .error () ∨ ∃ r, mo = .ok r ∧
      parseAIResponse r (content.links.take maxLinks) = .error ()) :
    analyzeLinksWithAI mo content query maxLinks =
      fallbackTextAnalysis (content.links.take maxLinks) query
        (if (splitWsJS (trimS query).data).length ≤ 2 then qPt05 else qPt1) ∧
    ∃ rest, (analyzeLinksWithAI mo content query maxLinks).queryInterpretation =
      fallbackPrefix ++ rest := by
  have hq' : ¬(query = "" ∨ trimS query = "") := by
    rintro (rfl | h)
    · exact hq rfl
    · exact hq h
  have hmain : analyzeLinksWithAI mo content query maxLinks =
      fallbackTextAnalysis (content.links.take maxLinks) query
        (if (splitWsJS (trimS query).data).length ≤ 2 then qPt05 else qPt1) := by
    rcases hfail with rfl | ⟨r, rfl, hperr⟩
    · simp only [analyzeLinksWithAI, if_neg hq', if_neg hl]
    · simp only [analyzeLinksWithAI, if_neg hq', if_neg hl, hperr]
  refine ⟨hmain, ?_⟩
  rw [hmain]
  exact ⟨spaceQuote ++ query ++ quoteStr, interp_has_prefix query⟩

def queryC2 : String := "alpha beta gamma"

/-- Witness for C2 at a concrete run: the model call throws, the query
has three words, and the result is the fallback analysis at 0.1. -/
theorem C2_witness :
    analyzeLinksWithAI (.error ()) dupContent queryC2 20 =
      fallbackTextAnalysis [dupLink1, dupLink2] queryC2 qPt1 := by
  have h := C2_failure_falls_back (.error ()) dupContent queryC2 20
    (by decide) (by decide) (Or.inl rfl)
  exact h.1.trans (by decide)

end Crawler

namespace Crawler

/-! ## Claim C6: admission rule of `parseAIResponse` -/

/-- Reference (claim-side) admission rule for one entry of the model's
`links` array: `index` and `relevanceScore` must both be number-typed;
the 1-based index must pass the range test `0 ≤ index - 1 < length`;
the score, NaN-free by construction and clamped into `[0,1]`, must
reach the floor `0.2`; missing or blank reasoning defaults to the fixed
placeholder; the admitted entry carries the url/text/type of the link
at that position — absent when the in-range index is not an integer,
since no link sits at a fractional position. -/
def admitEntrySpec (originalLinks : List ExtractedLink) (e : Json) : Option AnalyzedLink :=
  match fieldOf e keyIndex, fieldOf e keyScore with
  | some (.num idx), some (.num sc) =>
      let clamped := max 0 (min 1 sc)
      if (0 ≤ qsub idx 1 ∧ qsub idx 1 < (originalLinks.length : ℚ)) ∧ qPt2 ≤ clamped then
        some { url := (getAtQ originalLinks (qsub idx 1)).map (fun o => o.url)
             , text := (getAtQ originalLinks (qsub idx 1)).map (fun o => o.text)
             , type := (getAtQ originalLinks (qsub idx 1)).map (fun o => o.type)
             , relevanceScore := clamped
             , reasoning :=
                 match fieldOf e keyReasoning with
                 | some (.str r) => if trimS r ≠ "" then trimS r else noReasoning
                 | _ => noReasoning }
      else none
  | _, _ => none

def entryFrac : Json :=
  Json.obj [(keyIndex, Json.num (mkRat 5 2)), (keyScore, Json.num (mkRat 9 10))]

def fracResult : AnalyzedLink :=
  { url := none, text := none, type := none
  , relevanceScore := mkRat 9 10, reasoning := noReasoning }

/-- Claim C6 is false on the code as stated, in two ways.  (1) An entry
that is JSON `null` has no number-typed `index`, so the claim says it is
skipped; the code instead throws (property access on `null`), aborting
the whole parse.  (2) An entry with the fractional index 2.5 against a
2-element link list does not map to any position of the list, so the
claim says it is discarded; the code admits it (the range test
`0 <= 1.5 < 2` passes) with score 0.9 and with absent url/text/type. -/
theorem C6_counterexample :
    processEntries [dupLink1] [Json.null] = .error () ∧
    processEntries [dupLink1, dupLink2] [entryFrac] = .ok [fracResult] := by
  constructor
  · decide
  · decide

/-- One step of the admission loop, for a non-null entry, expressed
through the reference rule. -/
theorem processEntries_cons_eq (originalLinks : List ExtractedLink) (e : Json)
    (rest : List Json) (hnil : e.isNull = false) :
    processEntries originalLinks (e :: rest) =
      match admitEntrySpec originalLinks e with
      | some a => (processEntries originalLinks rest).map (fun tl => a :: tl)
      | none => processEntries originalLinks rest := by
  simp only [processEntries, hnil, Bool.false_eq_true, if_false]
  cases h1 : fieldOf e keyIndex with
  | none => simp [admitEntrySpec, h1]
  | some j1 =>
      cases j1 with
      | num idx =>
          cases h2 : fieldOf e keyScore with
          | none => simp [admitEntrySpec, h1, h2]
          | some j2 =>
              cases j2 with
              | num sc =>
                  simp only [admitEntrySpec, h1, h2]
                  by_cases hr : 0 ≤ qsub idx 1 ∧ qsub idx 1 < (originalLinks.length : ℚ)
                  · by_cases hs : qPt2 ≤ max 0 (min 1 sc)
                    · rw [if_pos hr, if_pos hs, if_pos (And.intro hr hs)]
                    · rw [if_pos hr, if_neg hs, if_neg (fun hc => hs hc.2)]
                  · rw [if_neg hr, if_neg (fun hc => hr hc.1)]
              | null => simp [admitEntrySpec, h1, h2]
              | bool b => simp [admitEntrySpec, h1, h2]
              | str s2 => simp [admitEntrySpec, h1, h2]
              | arr xs => simp [admitEntrySpec, h1, h2]
              | obj kvs => simp [admitEntrySpec, h1, h2]
      | null => simp [admitEntrySpec, h1]
      | bool b => simp [admitEntrySpec, h1]
      | str s1 => simp [admitEntrySpec, h1]
      | arr xs => simp [admitEntrySpec, h1]
      | obj kvs => simp [admitEntrySpec, h1]

/-- Claim C6 as amended: provided every entry of the `links` array is
non-null (a null entry aborts parsing and triggers the caller's
fallback), the admission loop is exactly `filterMap` of the reference
rule `admitEntrySpec`: number-typed `index` and `relevanceScore`, range
test `0 ≤ index-1 < length`, clamped score at least `0.2`, blank
reasoning defaulted, and the link fields taken from the list position
when `index-1` is integral (absent for an in-range fractional index). -/
theorem C6_admission_is_filterMap (originalLinks : List ExtractedLink)
    (entries : List Json) (hnn : ∀ e ∈ entries, e.isNull = false) :
    processEntries originalLinks entries =
      .ok (entries.filterMap (admitEntrySpec originalLinks)) := by
  induction entries with
  | nil => rfl
  | cons e rest ih =>
      have ih' := ih (fun x hx => hnn x (List.mem_cons_of_mem e hx))
      rw [processEntries_cons_eq originalLinks e rest (hnn e (List.mem_cons_self e rest)),
        List.filterMap_cons]
      cases h : admitEntrySpec originalLinks e with
      | none => exact ih'
      | some a => rw [ih']; rfl

def entryGood : Json := Json.obj [(keyIndex, Json.num 1), (keyScore, Json.num (mkRat 9 10))]

/-- Witness for the amended C6 at a concrete non-null entry list. -/
theorem C6_witness :
    processEntries [dupLink1] [entryGood] =
      .ok ([entryGood].filterMap (admitEntrySpec [dupLink1])) :=
  C6_admission_is_filterMap [dupLink1] [entryGood] (by decide)

end Crawler

namespace Crawler

/-! ## Claim C1: every produced relevance score lies in `[0,1]` -/

theorem fallbackScore_bounds (tl ul ql : List Char) (ws : List (List Char)) :
    0 ≤ fallbackScore tl ul ql ws ∧ fallbackScore tl ul ql ws ≤ 1 := by
  unfold fallbackScore
  rw [fallback_fold]
  refine ⟨le_min (by norm_num) ?_, min_le_left _ _⟩
  split_ifs with h1 h2 h2 <;> (try simp only [qadd_eq, qPt3_eq, qPt2_eq]) <;> positivity

theorem fallback_mem_bounds (links : List ExtractedLink) (query : String) (thr : ℚ)
    (a : AnalyzedLink) (ha : a ∈ (fallbackTextAnalysis links query thr).relevantLinks) :
    0 ≤ a.relevanceScore ∧ a.relevanceScore ≤ 1 := by
  have ha' := (mem_sortDesc _ _ _).mp ha
  have hmem := (List.mem_filter.mp ha').1
  obtain ⟨link, -, heq⟩ := List.mem_map.mp hmem
  have hscore : a.relevanceScore =
      fallbackScore (lowerL link.text.data) (lowerL link.url.data)
        (lowerL query.data)
        ((splitWsJS (lowerL query.data)).filter (fun w => 2 < w.length)) := by
    rw [← heq]
  rw [hscore]
  exact fallbackScore_bounds _ _ _ _

end Crawler

namespace Crawler

theorem admitEntrySpec_bounds (links : List ExtractedLink) (e : Json) (a : AnalyzedLink)
    (h : admitEntrySpec links e = some a) :
    0 ≤ a.relevanceScore ∧ a.relevanceScore ≤ 1 := by
  simp only [admitEntrySpec] at h
  split at h
  · next idx sc h1 h2 =>
      split at h
      · next hcond =>
          have ha : _ = a := Option.some.inj h
          subst ha
          exact ⟨le_max_left _ _, max_le (by norm_num) (min_le_left _ _)⟩
      · exact absurd h (by simp)
  · exact absurd h (by simp)

theorem processEntries_ok_eq (links : List ExtractedLink) (entries : List Json)
    (lst : List AnalyzedLink) (h : processEntries links entries = .ok lst) :
    lst = entries.filterMap (admitEntrySpec links) := by
  induction entries generalizing lst with
  | nil =>
      simp only [processEntries] at h
      simpa using (Except.ok.inj h).symm
  | cons e rest ih =>
      by_cases hnil : e.isNull = true
      · simp only [processEntries, hnil, if_true] at h
        exact absurd h (by simp)
      · rw [processEntries_cons_eq links e rest (by simpa using hnil)] at h
        rw [List.filterMap_cons]
        cases hadm : admitEntrySpec links e with
        | none =>
            rw [hadm] at h
            exact ih lst h
        | some a =>
            rw [hadm] at h
            cases hrest : processEntries links rest with
            | error u => rw [hrest] at h; exact absurd h (by simp [Except.map])
            | ok tl =>
                rw [hrest] at h
                simp only [Except.map] at h
                rw [← Except.ok.inj h, ih tl hrest]

theorem processEntries_ok_bounds (links : List ExtractedLink) (entries : List Json)
    (lst : List AnalyzedLink) (h : processEntries links entries = .ok lst)
    (a : AnalyzedLink) (ha : a ∈ lst) :
    0 ≤ a.relevanceScore ∧ a.relevanceScore ≤ 1 := by
  rw [processEntries_ok_eq links entries lst h] at ha
  obtain ⟨e, -, hadm⟩ := List.mem_filterMap.mp ha
  exact admitEntrySpec_bounds links e a hadm

theorem analyzeParsed_ok_bounds (parsed : Json) (links : List ExtractedLink)
    (pa : ParsedAnalysis) (h : analyzeParsed parsed links = .ok pa)
    (a : AnalyzedLink) (ha : a ∈ pa.relevantLinks) :
    0 ≤ a.relevanceScore ∧ a.relevanceScore ≤ 1 := by
  simp only [analyzeParsed] at h
  split at h
  · exact absurd h (by simp)
  · next rl hproc =>
      have hpa : _ = pa := Except.ok.inj h
      subst hpa
      exact processEntries_ok_bounds links _ rl hproc a ((mem_sortDesc _ _ _).mp ha)

theorem parseAIResponse_ok_bounds (r : String) (links : List ExtractedLink)
    (pa : ParsedAnalysis) (h : parseAIResponse r links = .ok pa)
    (a : AnalyzedLink) (ha : a ∈ pa.relevantLinks) :
    0 ≤ a.relevanceScore ∧ a.relevanceScore ≤ 1 := by
  simp only [parseAIResponse] at h
  split at h
  · exact absurd h (by simp)
  · split at h
    · exact absurd h (by simp)
    · next parsed hparsed => exact analyzeParsed_ok_bounds parsed links pa h a ha

/-- Claim C1: on every path of `analyzeLinksWithAI` — primary
model-based (clamped in `parseAIResponse`), short-query augmentation,
and deterministic fallback (non-negative increments capped at 1) —
every returned `relevanceScore` lies in the closed interval `[0,1]`. -/
theorem C1_scores_in_unit_interval (mo : Except Unit String)
    (content : ExtractedContent) (query : String) (maxLinks : Nat)
    (a : AnalyzedLink)
    (ha : a ∈ (analyzeLinksWithAI mo content query maxLinks).relevantLinks) :
    0 ≤ a.relevanceScore ∧ a.relevanceScore ≤ 1 := by
  simp only [analyzeLinksWithAI] at ha
  by_cases hq : (query = "" ∨ trimS query = "")
  · rw [if_pos hq] at ha
    exact absurd ha (by simp)
  · rw [if_neg hq] at ha
    by_cases hl : content.links.take maxLinks = []
    · rw [if_pos hl] at ha
      exact absurd ha (by simp)
    · rw [if_neg hl] at ha
      split at ha
      · exact fallback_mem_bounds _ _ _ a ha
      · next r =>
          split at ha
          · exact fallback_mem_bounds _ _ _ a ha
          · next ar hp =>
              split at ha
              · split at ha
                · exact fallback_mem_bounds _ _ _ a ha
                · exact parseAIResponse_ok_bounds r _ ar hp a ha
              · exact parseAIResponse_ok_bounds r _ ar hp a ha

def memberC1 : AnalyzedLink :=
  { url := some ("https://site.test/a"), text := some ("Alpha")
  , type := some LinkType.internal, relevanceScore := mkRat 2 5, reasoning := reasonMatch }

/-- Witness for C1 at a concrete run: the model call throws, the
fallback retains one link, whose score 0.4 lies in `[0,1]`. -/
theorem C1_witness :
    memberC1 ∈ (analyzeLinksWithAI (.error ()) dupContent queryC2 20).relevantLinks ∧
    0 ≤ memberC1.relevanceScore ∧ memberC1.relevanceScore ≤ 1 :=
  ⟨by decide, C1_scores_in_unit_interval (.error ()) dupContent queryC2 20 memberC1 (by decide)⟩

end Crawler

namespace Crawler

/-! ## Claim C5: extracted link sets are absolute and duplicate-free -/

theorem extractLinksLoop_invariant (baseObj : URLRec) (baseUrl : String)
    (anchors : List (String × String)) (acc : List ExtractedLink)
    (hparse : ∀ l ∈ acc, (parseURL l.url).isSome)
    (hdist : (acc.map (fun l => l.url)).Pairwise (fun x y => x ≠ y)) :
    (∀ l ∈ extractLinksLoop baseObj baseUrl anchors acc, (parseURL l.url).isSome) ∧
    ((extractLinksLoop baseObj baseUrl anchors acc).map (fun l => l.url)).Pairwise
      (fun x y => x ≠ y) := by
  induction anchors generalizing acc with
  | nil => exact ⟨hparse, hdist⟩
  | cons p rest ih =>
      obtain ⟨href, raw⟩ := p
      simp only [extractLinksLoop]
      split
      · exact ih acc hparse hdist
      · split
        · exact ih acc hparse hdist
        · next absoluteUrl hres =>
            split
            · exact ih acc hparse hdist
            · next absObj habs =>
                split
                · exact ih acc hparse hdist
                · next hdup =>
                    apply ih
                    · intro l hl
                      rcases List.mem_append.mp hl with hl | hl
                      · exact hparse l hl
                      · rw [List.mem_singleton.mp hl]
                        simp [habs]
                    · rw [List.map_append]
                      refine List.pairwise_append.mpr ⟨hdist, by simp, ?_⟩
                      intro x hx y hy
                      simp only [List.map_cons, List.map_nil, List.mem_singleton] at hy
                      subst hy
                      obtain ⟨l, hl, rfl⟩ := List.mem_map.mp hx
                      intro hxy
                      apply hdup
                      rw [List.any_eq_true]
                      exact ⟨l, hl, by simp [hxy]⟩

theorem processLinksLoop_invariant (baseObj : URLRec) (baseUrl : String)
    (urls : List String) (acc : List ExtractedLink)
    (hparse : ∀ l ∈ acc, (parseURL l.url).isSome)
    (hdist : (acc.map (fun l => l.url)).Pairwise (fun x y => x ≠ y)) :
    (∀ l ∈ processLinksLoop baseObj baseUrl urls acc, (parseURL l.url).isSome) ∧
    ((processLinksLoop baseObj baseUrl urls acc).map (fun l => l.url)).Pairwise
      (fun x y => x ≠ y) := by
  induction urls generalizing acc with
  | nil => exact ⟨hparse, hdist⟩
  | cons url rest ih =>
      simp only [processLinksLoop]
      split
      · exact ih acc hparse hdist
      · split
        · exact ih acc hparse hdist
        · next absoluteUrl hres =>
            split
            · exact ih acc hparse hdist
            · next absObj habs =>
                split
                · exact ih acc hparse hdist
                · next hdup =>
                    apply ih
                    · intro l hl
                      rcases List.mem_append.mp hl with hl | hl
                      · exact hparse l hl
                      · rw [List.mem_singleton.mp hl]
                        simp [habs]
                    · rw [List.map_append]
                      refine List.pairwise_append.mpr ⟨hdist, by simp, ?_⟩
                      intro x hx y hy
                      simp only [List.map_cons, List.map_nil, List.mem_singleton] at hy
                      subst hy
                      obtain ⟨l, hl, rfl⟩ := List.mem_map.mp hx
                      intro hxy
                      apply hdup
                      rw [List.any_eq_true]
                      exact ⟨l, hl, by simp [hxy]⟩

/-- Claim C5: for every parseable absolute base URL, both extraction
pipelines — `extractLinks` over anchor matches and
`processExtractedLinks` over a flat URL list — produce only links whose
`url` parses as an absolute URL, with pairwise-distinct `url` strings
(duplicates after the first admission are dropped by construction). -/
theorem C5_links_absolute_and_unique (baseUrl : String)
    (anchors : List (String × String)) (urls : List String)
    (res₁ res₂ : List ExtractedLink)
    (h₁ : extractLinks baseUrl anchors = some res₁)
    (h₂ : processExtractedLinks urls baseUrl = some res₂) :
    ((∀ l ∈ res₁, (parseURL l.url).isSome) ∧
      (res₁.map (fun l => l.url)).Pairwise (fun x y => x ≠ y)) ∧
    ((∀ l ∈ res₂, (parseURL l.url).isSome) ∧
      (res₂.map (fun l => l.url)).Pairwise (fun x y => x ≠ y)) := by
  cases hb : parseURL baseUrl with
  | none =>
      rw [extractLinks, hb] at h₁
      exact absurd h₁ (by simp)
  | some baseObj =>
      rw [extractLinks, hb] at h₁
      rw [processExtractedLinks, hb] at h₂
      simp only [Option.map_some'] at h₁ h₂
      rw [← Option.some.inj h₁, ← Option.some.inj h₂]
      exact ⟨extractLinksLoop_invariant baseObj baseUrl anchors [] (by simp) (by simp),
        processLinksLoop_invariant baseObj baseUrl urls [] (by simp) (by simp)⟩

def baseW : String := "https://site.test/base/page"

def anchorsW : List (String × String) := [(r"/docs", r"Docs")]

def linkW : ExtractedLink :=
  { url := "https://site.test/docs", text := "Docs", type := LinkType.internal }

/-- Witness for C5 at a concrete run of both pipelines (the anchor list
produces exactly `[linkW]`, the flat URL list is empty). -/
theorem C5_witness : (parseURL linkW.url).isSome = true :=
  (C5_links_absolute_and_unique baseW anchorsW [] [linkW] []
    (by decide) (by decide)).1.1 linkW (by decide)

end Crawler

namespace Crawler

/-! ## Claim C7: fenced-block versus naive brace extraction -/

theorem dropBefore_isSome_of_mem (c : Char) (l : List Char) (h : c ∈ l) :
    (dropBefore c l).isSome := by
  induction l with
  | nil => cases h
  | cons a as ih =>
      rw [dropBefore]
      by_cases hac : a = c
      · simp [hac]
      · rcases List.mem_cons.mp h with rfl | h'
        · exact absurd rfl hac
        · simp [hac, ih h']

theorem takeThruLast_isSome_of_mem (c : Char) (l : List Char) (h : c ∈ l) :
    (takeThruLast c l).isSome := by
  rw [takeThruLast]
  have := dropBefore_isSome_of_mem c l.reverse (List.mem_reverse.mpr h)
  cases hd : dropBefore c l.reverse with
  | none => rw [hd] at this; cases this
  | some t => simp

theorem dropBefore_eq_some (c : Char) (l t : List Char) (h : dropBefore c l = some t) :
    ∃ pre t', l = pre ++ t ∧ t = c :: t' ∧ c ∉ pre := by
  induction l generalizing t with
  | nil => cases h
  | cons a as ih =>
      rw [dropBefore] at h
      by_cases hac : a = c
      · rw [if_pos hac] at h
        exact ⟨[], as, by simp [← Option.some.inj h],
          by rw [← Option.some.inj h, hac], by simp⟩
      · rw [if_neg hac] at h
        obtain ⟨pre, t', hl, ht, hnc⟩ := ih t h
        refine ⟨a :: pre, t', by simp [hl], ht, ?_⟩
        intro hmem
        rcases List.mem_cons.mp hmem with heq | hmem'
        · exact hac heq.symm
        · exact hnc hmem'

/-- Everything after the first `\x7b` of a list that has a `\x7b`
followed later by a `\x7d` still contains that `\x7d`. -/
theorem close_after_first_open (p q r : List Char) :
    ∀ pre t' : List Char, p ++ '{' :: (q ++ '}' :: r) = pre ++ '{' :: t' →
      '{' ∉ pre → '}' ∈ t' := by
  induction p with
  | nil =>
      intro pre t' h hnp
      cases pre with
      | nil =>
          simp only [List.nil_append, List.cons.injEq] at h
          rw [← h.2]
          simp
      | cons b pre' =>
          simp only [List.nil_append, List.cons_append, List.cons.injEq] at h
          exact absurd (h.1 ▸ List.mem_cons_self b pre') (h.1 ▸ hnp)
  | cons a p' ih =>
      intro pre t' h hnp
      cases pre with
      | nil =>
          simp only [List.cons_append, List.nil_append, List.cons.injEq] at h
          rw [← h.2]
          simp
      | cons b pre' =>
          simp only [List.cons_append, List.cons.injEq] at h
          exact ih pre' t' h.2 (fun hm => hnp (List.mem_cons_of_mem b hm))

theorem naiveMatch_isSome (p q r : List Char) :
    (naiveMatch (p ++ '{' :: (q ++ '}' :: r))).isSome := by
  rw [naiveMatch]
  have hmem : '{' ∈ p ++ '{' :: (q ++ '}' :: r) := by simp
  cases hd : dropBefore '{' (p ++ '{' :: (q ++ '}' :: r)) with
  | none =>
      have := dropBefore_isSome_of_mem '{' _ hmem
      rw [hd] at this
      cases this
  | some t =>
      obtain ⟨pre, t', hl, ht, hnp⟩ := dropBefore_eq_some '{' _ t hd
      subst ht
      have hmem' : '}' ∈ t' := close_after_first_open p q r pre t' hl hnp
      change (Option.map (fun u => '{' :: u) (takeThruLast '}' t')).isSome = true
      have h2 := takeThruLast_isSome_of_mem '}' t' hmem'
      cases htk : takeThruLast '}' t' with
      | none => rw [htk] at h2; cases h2
      | some u => simp [htk]

theorem lazyCloseBrace_decomp (l g : List Char) (h : lazyCloseBrace l = some g) :
    ∃ a b, l = a ++ '}' :: b := by
  induction l generalizing g with
  | nil => cases h
  | cons c cs ih =>
      rw [lazyCloseBrace] at h
      by_cases hc : c = '}' ∧ fenceAfterWs cs
      · exact ⟨[], cs, by rw [hc.1]; rfl⟩
      · rw [if_neg hc] at h
        cases hlc : lazyCloseBrace cs with
        | none => rw [hlc] at h; cases h
        | some g' =>
            obtain ⟨a, b, hab⟩ := ih g' hlc
            exact ⟨c :: a, b, by rw [hab]; rfl⟩

theorem fencedHere_decomp (l g : List Char) (h : fencedHere l = some g) :
    ∃ p q r, l = p ++ '{' :: (q ++ '}' :: r) := by
  simp only [fencedHere] at h
  split at h
  · split at h
    · next rest heq =>
        cases hlc : lazyCloseBrace rest with
        | none => rw [hlc] at h; cases h
        | some g' =>
            obtain ⟨a, b, hab⟩ := lazyCloseBrace_decomp rest g' hlc
            set r2 := if startsWithL (l.drop 3) jsonWord then (l.drop 3).drop 4
              else l.drop 3 with hr2def
            have h3 : r2 = r2.takeWhile isWsJS ++ '{' :: rest := by
              conv =>
                lhs
                rw [← List.takeWhile_append_dropWhile (p := isWsJS) (l := r2)]
              rw [heq]
            have h2 : l.drop 3 =
                (if startsWithL (l.drop 3) jsonWord then (l.drop 3).take 4 else []) ++ r2 := by
              by_cases hj : startsWithL (l.drop 3) jsonWord
              · rw [hr2def, if_pos hj, if_pos hj, List.take_append_drop]
              · rw [hr2def, if_neg hj, if_neg hj, List.nil_append]
            have h1 : l = l.take 3 ++ l.drop 3 := (List.take_append_drop 3 l).symm
            refine ⟨l.take 3 ++
              (if startsWithL (l.drop 3) jsonWord then (l.drop 3).take 4 else []) ++
              r2.takeWhile isWsJS, a, b, ?_⟩
            rw [hab] at h3
            conv =>
              lhs
              rw [h1, h2, h3]
            simp [List.append_assoc]
    · next => cases h
  · cases h

theorem codeBlockMatch_decomp (l g : List Char) (h : codeBlockMatch l = some g) :
    ∃ p q r, l = p ++ '{' :: (q ++ '}' :: r) := by
  induction l generalizing g with
  | nil => cases h
  | cons c cs ih =>
      rw [codeBlockMatch] at h
      cases hf : fencedHere (c :: cs) with
      | some g' =>
          rw [hf] at h
          exact fencedHere_decomp _ _ hf
      | none =>
          rw [hf] at h
          obtain ⟨p, q, r, hpqr⟩ := ih g h
          exact ⟨c :: p, q, r, by rw [hpqr]; rfl⟩

/-- Claim C7 as amended: the span extraction of `parseAIResponse`
always equals the naive first-brace-to-last-brace match; the
fenced-code-block branch is dead code, because it is consulted only
when the naive match failed, yet any fenced block containing a JSON
object also makes the naive match succeed. -/
theorem C7_naive_span_always_wins (l : List Char) :
    extractJsonSpan l = naiveMatch l := by
  rw [extractJsonSpan]
  cases hn : naiveMatch l with
  | some t => rfl
  | none =>
      cases hc : codeBlockMatch l with
      | none => rfl
      | some g =>
          exfalso
          obtain ⟨p, q, r, rfl⟩ := codeBlockMatch_decomp l g hc
          have := naiveMatch_isSome p q r
          rw [hn] at this
          cases this

def respC7 : String :=
  "Note \x7bsome braces\x7d in prose.\n```json\n\x7b\"queryInterpretation\":\"q\",\"links\":[]\x7d\n```"

def fencedContentC7 : String := "\x7b\"queryInterpretation\":\"q\",\"links\":[]\x7d"

/-- Claim C7 is false on the code: for a response holding a parseable
JSON object inside a fenced code block with brace-bearing prose around
it, the fenced group is present and parseable, yet `parseAIResponse`
does not parse it — the naive first-to-last-brace span is extracted
instead (spanning the prose), fails to parse even after repair, and the
whole parse errors out. -/
theorem C7_counterexample :
    codeBlockMatch (trimL respC7.data) = some fencedContentC7.data ∧
    (jsonParse fencedContentC7.data).isSome = true ∧
    extractJsonSpan (trimL respC7.data) ≠ some fencedContentC7.data ∧
    parseAIResponse respC7 [dupLink1] = .error () := by
  refine ⟨by decide, by decide, by decide, by decide⟩

end Crawler

namespace Crawler

/-! ## Claim C9: the `pageText` length cap -/

theorem removeScriptsF_no_lt (fuel : Nat) (l : List Char) (h : '<' ∉ l) :
    removeScriptsF fuel l = l := by
  induction fuel generalizing l with
  | zero => cases l <;> rfl
  | succ n ih =>
      cases l with
      | nil => rfl
      | cons c cs =>
          have hc : ¬(c = '<') := fun hc => h (hc ▸ List.mem_cons_self c cs)
          rw [removeScriptsF, if_neg hc, ih cs (fun hm => h (List.mem_cons_of_mem c hm))]

theorem stripTagsF_no_lt (repl : List Char) (fuel : Nat) (l : List Char) (h : '<' ∉ l) :
    stripTagsF repl fuel l = l := by
  induction fuel generalizing l with
  | zero => cases l <;> rfl
  | succ n ih =>
      cases l with
      | nil => rfl
      | cons c cs =>
          have hc : ¬(c = '<') := fun hc => h (hc ▸ List.mem_cons_self c cs)
          rw [stripTagsF, if_neg hc, ih cs (fun hm => h (List.mem_cons_of_mem c hm))]

theorem replaceAllF_no_head (pc : Char) (pr repl : List Char) (fuel : Nat) (l : List Char)
    (h : pc ∉ l) : replaceAllF (pc :: pr) repl fuel l = l := by
  induction fuel generalizing l with
  | zero => cases l <;> simp [replaceAllF]
  | succ n ih =>
      cases l with
      | nil => rfl
      | cons c cs =>
          have hc : ¬(pc = c) := fun hc => h (hc ▸ List.mem_cons_self c cs)
          have hpre : (pc :: pr).isPrefixOf (c :: cs) = false := by
            simp [List.isPrefixOf, hc]
          rw [replaceAllF, hpre]
          simp only [Bool.false_eq_true, if_false]
          rw [ih cs (fun hm => h (List.mem_cons_of_mem c hm))]

theorem collapseGo_no_ws (b : Bool) (l : List Char) (h : ∀ c ∈ l, isWsJS c = false) :
    collapseGo b l = l := by
  induction l generalizing b with
  | nil => rfl
  | cons c cs ih =>
      rw [collapseGo, h c (List.mem_cons_self c cs)]
      simp only [Bool.false_eq_true, if_false]
      rw [ih false (fun x hx => h x (List.mem_cons_of_mem c hx))]

theorem dropWhile_no_ws (l : List Char) (h : ∀ c ∈ l, isWsJS c = false) :
    l.dropWhile isWsJS = l := by
  cases l with
  | nil => rfl
  | cons c cs => rw [List.dropWhile_cons, h c (List.mem_cons_self c cs)]; simp

theorem trimL_no_ws (l : List Char) (h : ∀ c ∈ l, isWsJS c = false) : trimL l = l := by
  rw [trimL, dropWhile_no_ws l h,
    dropWhile_no_ws l.reverse (fun c hc => h c (List.mem_reverse.mp hc)), List.reverse_reverse]

def bigHtml : String := ⟨List.replicate 3500 'a'⟩

theorem bigHtml_clean : extractTextClean bigHtml.data = List.replicate 3500 'a' := by
  have hmem : ∀ c ∈ List.replicate 3500 'a', c = 'a' := fun c hc => List.eq_of_mem_replicate hc
  have hlt : '<' ∉ List.replicate 3500 'a' := fun hm => by cases hmem _ hm
  have hamp : '&' ∉ List.replicate 3500 'a' := fun hm => by cases hmem _ hm
  have hws : ∀ c ∈ List.replicate 3500 'a', isWsJS c = false := fun c hc => by
    rw [hmem c hc]; rfl
  show extractTextClean (List.replicate 3500 'a') = List.replicate 3500 'a'
  rw [extractTextClean, removeScripts, removeScriptsF_no_lt _ _ hlt,
    stripTags, stripTagsF_no_lt _ _ _ hlt, decodeEntities]
  simp only [replaceAll, entAmp, entLt, entGt, entQuot, entApos, entNbsp]
  rw [replaceAllF_no_head _ _ _ _ _ hamp, replaceAllF_no_head _ _ _ _ _ hamp,
    replaceAllF_no_head _ _ _ _ _ hamp, replaceAllF_no_head _ _ _ _ _ hamp,
    replaceAllF_no_head _ _ _ _ _ hamp, replaceAllF_no_head _ _ _ _ _ hamp]
  rw [collapseWs, collapseGo_no_ws _ _ hws, trimL_no_ws _ hws]

/-- Claim C9 is false as stated: on a 3500-character source text the
produced `pageText` has length 3003 (the first 3000 characters plus the
appended `"..."` marker), which exceeds the claimed cap of 3000. -/
theorem data_mk (l : List Char) : (⟨l⟩ : String).data = l := rfl

theorem C9_counterexample : ¬((extractText bigHtml).data.length ≤ 3000) := by
  have hdata : (extractText bigHtml).data = (List.replicate 3500 'a').take 3000 ++ dots3 := by
    rw [extractText, data_mk, bigHtml_clean, truncate3000,
      if_pos (by rw [List.length_replicate]; norm_num)]
  rw [hdata]
  simp only [List.length_append, List.length_take, List.length_replicate, dots3,
    List.length_cons, List.length_nil]
  norm_num

theorem truncate3000_spec (l : List Char) :
    truncate3000 l = l.take 3000 ++ (if 3000 < l.length then dots3 else []) ∧
    (truncate3000 l).length ≤ 3003 := by
  rw [truncate3000]
  by_cases h : 3000 < l.length
  · rw [if_pos h, if_pos h]
    refine ⟨rfl, ?_⟩
    simp only [List.length_append, List.length_take, dots3, List.length_cons, List.length_nil]
    omega
  · rw [if_neg h, if_neg h, List.append_nil, List.take_of_length_le (by omega)]
    exact ⟨rfl, by omega⟩

/-- Claim C9 as amended: both text extractors return the first 3000
characters of the cleaned source text with the `"..."` marker appended
exactly when the cleaned text exceeds 3000 characters; the output
length is therefore bounded by 3003 (3000 plus the 3-character marker),
not 3000. -/
theorem C9_pageText_bounded_by_3003 (s : String) :
    (extractText s).data = (extractTextClean s.data).take 3000 ++
      (if 3000 < (extractTextClean s.data).length then dots3 else []) ∧
    (extractText s).data.length ≤ 3003 ∧
    (extractTextFromMarkdown s).data = (extractMarkdownClean s.data).take 3000 ++
      (if 3000 < (extractMarkdownClean s.data).length then dots3 else []) ∧
    (extractTextFromMarkdown s).data.length ≤ 3003 := by
  refine ⟨?_, ?_, ?_, ?_⟩
  · rw [extractText, data_mk]
    exact (truncate3000_spec _).1
  · rw [extractText, data_mk]
    exact (truncate3000_spec _).2
  · rw [extractTextFromMarkdown, data_mk]
    exact (truncate3000_spec _).1
  · rw [extractTextFromMarkdown, data_mk]
    exact (truncate3000_spec _).2

end Crawler
